import Mathlib

/-
Verification of the RAFT bitset reference implementation
(`cpp/test/core/bitset.cu` CPU oracle functions).

The bitset stores `N` logical bits in an array of unsigned words of width
`W` bits (`W = sizeof(bitset_t) * 8`).  Words are embedded as `Nat` with the
invariant that each word is `< 2 ^ W`; the bitwise operators `&&&`, `|||`,
`^^^`, `<<<`, `>>>` on `Nat` agree with the machine operators on that range.
Little-endian byte reinterpretation (the `reinterpret_cast` / `memcpy` in the
test) is modelled explicitly by serializing words to bytes and reading words
of a different width back from the byte list.
-/

set_option maxHeartbeats 1000000

namespace RaftBitset

/-- Little-endian serialization of one word into `k` bytes (the low byte
first), as performed by `memcpy` from an array of unsigned words on a
little-endian machine. -/
def toBytesLE : Nat → Nat → List Nat
  | 0, _ => []
  | k + 1, x => x % 256 :: toBytesLE k (x / 256)

/-- Little-endian serialization of a whole word array (`wB` bytes per word). -/
def wordsToBytesLE (wB : Nat) : List Nat → List Nat
  | [] => []
  | w :: ws => toBytesLE wB w ++ wordsToBytesLE wB ws

/-- Read one word of `k` bytes, little-endian, starting at byte index `s`:
this is what indexing a `bitset_t*` obtained by reinterpreting a byte buffer
does on a little-endian machine. -/
def readWordLE (bytes : List Nat) : Nat → Nat → Nat
  | 0, _ => 0
  | k + 1, s => bytes.getD s 0 + 256 * readWordLE bytes k (s + 1)

/-- Bit `p` of the byte stream: bit `p % 8` of byte `p / 8`. -/
def streamBit (bytes : List Nat) (p : Nat) : Bool :=
  (bytes.getD (p / 8) 0).testBit (p % 8)

/-- Bit `p` of a word array at word width `W`: bit `p % W` of word `p / W`.
Out-of-range words read as `0`. -/
def bitAt (W : Nat) (data : List Nat) (p : Nat) : Bool :=
  (data.getD (p / W) 0).testBit (p % W)

/-- Embedding of `test_cpu_bitset` (bitset.cu, lines 134-144): membership
test of one query at the native word width `W`:
`(bitset[q / W] & (1 << (q % W))) != 0`. -/
def test_cpu_bitset (W : Nat) (bitset : List Nat) (query : Nat) : Bool :=
  (bitset.getD (query / W) 0) &&& (1 <<< (query % W)) != 0

/-- Embedding of `test_cpu_bitset_nbits` (bitset.cu, lines 146-178): membership
test of one query through a view of width `W` (`nbits = sizeof(bitset_t)*8`)
over the byte reinterpretation of a bitset whose native width was
`original_nbits`.  The source receives a `bitset_t*` aliasing the original
buffer; here the buffer is the explicit little-endian byte list and
`bitset[new_bit_index]` is `readWordLE bytes (W / 8) (new_bit_index * (W / 8))`.
When `original_nbits == nbits` the source first runs the direct loop and then
unconditionally overwrites `result` with the remapped loop, so only the
remapped value survives; the remapped computation is modelled. -/
def test_cpu_bitset_nbits (W : Nat) (bytes : List Nat) (query : Nat)
    (original_nbits : Nat) : Bool :=
  let nbits := W
  let original_bit_index := query / original_nbits
  let original_bit_offset := query % original_nbits
  let new_bit_index :=
    if original_nbits > nbits then
      original_bit_index * original_nbits / nbits + original_bit_offset / nbits
    else
      original_bit_index * original_nbits / nbits
  let new_bit_offset :=
    if original_nbits > nbits then
      original_bit_offset % nbits
    else
      (original_bit_index % (nbits / original_nbits)) * original_nbits +
        original_bit_offset % nbits
  let bit_element := readWordLE bytes (W / 8) (new_bit_index * (W / 8))
  bit_element &&& (1 <<< new_bit_offset) != 0

/-- Embedding of the loop body of `add_cpu_bitset` (bitset.cu, lines 115-123):
`bitset[idx / W] &= ~(1 << (idx % W))`.  The complement of a one-hot `W`-bit
word is `(2 ^ W - 1) ^^^ (1 <<< (idx % W))`. -/
def clear_bit (W : Nat) (bitset : List Nat) (idx : Nat) : List Nat :=
  bitset.set (idx / W)
    ((bitset.getD (idx / W) 0) &&& ((2 ^ W - 1) ^^^ (1 <<< (idx % W))))

/-- Embedding of `add_cpu_bitset` (bitset.cu, lines 115-123): clear the bit of
each mask index in order. -/
def add_cpu_bitset (W : Nat) (bitset : List Nat) : List Nat → List Nat
  | [] => bitset
  | idx :: rest => add_cpu_bitset W (clear_bit W bitset idx) rest

/-- Embedding of `create_cpu_bitset` (bitset.cu, lines 125-132): every word of
the preallocated array is set to `~bitset_t(0) = 2 ^ W - 1`, then the mask
indices are cleared. -/
def create_cpu_bitset (W : Nat) (bitset : List Nat) (mask_idx : List Nat) :
    List Nat :=
  add_cpu_bitset W (bitset.map (fun _ => 2 ^ W - 1)) mask_idx

/-- Embedding of `flip_cpu_bitset` (bitset.cu, lines 180-186):
`bitset[i] = ~bitset[i]`, i.e. the `W`-bit complement of every word. -/
def flip_cpu_bitset (W : Nat) (bitset : List Nat) : List Nat :=
  bitset.map (fun x => (2 ^ W - 1) ^^^ x)

/-- Embedding of the inner statement of `repeat_cpu_bitset`
(bitset.cu, lines 201-213): read input bit `i` and OR it into output bit
position `output_bit_index`.  The source increments `output_bit_index` once
per `(r, i)` iteration of the row-major double loop starting from `0`, so at
iteration `(r, i)` it equals `r * input_bits + i`. -/
def repeat_body (W : Nat) (input : List Nat) (input_bits : Nat)
    (output : List Nat) (r i : Nat) : List Nat :=
  let bit := (input.getD (i / W) 0 >>> (i % W)) &&& 1
  let output_bit_index := r * input_bits + i
  output.set (output_bit_index / W)
    ((output.getD (output_bit_index / W) 0) ||| (bit <<< (output_bit_index % W)))

/-- Embedding of `repeat_cpu_bitset` (bitset.cu, lines 188-215): the output
buffer of `output_units = (input_bits * repeat + W - 1) / W` words is zeroed
(`memset`), then for each repetition `r` and each input bit `i` the bit is
OR-ed into the next output bit position. -/
def repeat_cpu_bitset (W : Nat) (input : List Nat) (input_bits rep : Nat) :
    List Nat :=
  let output_bits := input_bits * rep
  let output_units := (output_bits + W - 1) / W
  (List.range rep).foldl
    (fun output r =>
      (List.range input_bits).foldl
        (fun output i => repeat_body W input input_bits output r i) output)
    (List.replicate output_units 0)

/-- Embedding of the counting loop of `sparsity_cpu_bitset`
(bitset.cu, lines 217-228): the number of `i < total_bits` with
`((data[i / W] >> (i % W)) & 1) == 1`. -/
def one_count (W : Nat) (data : List Nat) (total_bits : Nat) : Nat :=
  (List.range total_bits).countP
    (fun i => ((data.getD (i / W) 0 >>> (i % W)) &&& 1) == 1)

/-- Embedding of `sparsity_cpu_bitset` (bitset.cu, lines 217-228):
`(total_bits - one_count) / total_bits`, the division taken exactly in `ℚ`
(the source divides in `double`). -/
def sparsity_cpu_bitset (W : Nat) (data : List Nat) (total_bits : Nat) : ℚ :=
  ((total_bits - one_count W data total_bits : Nat) : ℚ) / (total_bits : ℚ)

/-- Modelled from the spec: `bitset_view::eval_n_elements(bit_count)` lives in
`raft/core/bitset.cuh`, which is absent from the excerpted sources (the test
only calls it, lines 360-362).  Per the spec it is the pure function
`ceil(bit_count / bits_per_word)`, the same `raft::ceildiv` formula the test
uses to size `bitset_repeat_ref`. -/
def eval_n_elements (W : Nat) (bit_count : Nat) : Nat :=
  (bit_count + W - 1) / W

/-- Modelled from the spec: the owning `bitset` constructor of
`raft/core/bitset.cuh` is absent from the excerpted sources (the test only
invokes it, line 266); the CPU oracle `create_cpu_bitset` assumes
pre-validated indices.  Per the spec, `construct(length, mask_indices)` fails
with `InvalidArgument` if any index is out of `[0, length)`; otherwise it
allocates `ceil(length / W)` words, initializes all bits to `1`, and clears
the bit at each mask index. -/
def construct (W : Nat) (length : Nat) (mask_idx : List Nat) :
    Except String (List Nat) :=
  if mask_idx.all (fun idx => idx < length) then
    Except.ok
      (create_cpu_bitset W (List.replicate ((length + W - 1) / W) 0) mask_idx)
  else
    Except.error "InvalidArgument"

/-! ### Bridging lemmas between the C bit tests and `Nat.testBit` -/

theorem and_one_shiftLeft_ne (x k : Nat) :
    (x &&& (1 <<< k) != 0) = x.testBit k := by
  cases h : x.testBit k <;>
    simp [Nat.one_shiftLeft, Nat.and_two_pow, h, Nat.pos_iff_ne_zero]

theorem shiftRight_and_one_beq (x k : Nat) :
    (((x >>> k) &&& 1) == 1) = x.testBit k := by
  simp only [Nat.shiftRight_eq_div_pow, Nat.and_one_is_mod, Nat.testBit_to_div_mod]
  rfl

theorem test_cpu_bitset_eq_bitAt (W : Nat) (bitset : List Nat) (q : Nat) :
    test_cpu_bitset W bitset q = bitAt W bitset q :=
  and_one_shiftLeft_ne _ _

theorem one_count_eq_countP_bitAt (W : Nat) (data : List Nat) (N : Nat) :
    one_count W data N = (List.range N).countP (fun i => bitAt W data i) := by
  unfold one_count
  refine List.countP_congr fun i _ => ?_
  rw [shiftRight_and_one_beq]
  exact Iff.rfl

theorem le_mul_ceilDiv (W N : Nat) (hW : 0 < W) : N ≤ W * ((N + W - 1) / W) := by
  have h1 := Nat.div_add_mod (N + W - 1) W
  have h2 : (N + W - 1) % W < W := Nat.mod_lt _ hW
  omega

theorem div_lt_length {W p L : Nat} (hW : 0 < W) (h : p < W * L) : p / W < L := by
  rw [Nat.div_lt_iff_lt_mul hW, Nat.mul_comm]
  exact h

/-! ### Flip -/

theorem bitAt_flip (W : Nat) (bitset : List Nat) (p : Nat) (hW : 0 < W)
    (hp : p < W * bitset.length) :
    bitAt W (flip_cpu_bitset W bitset) p = ! bitAt W bitset p := by
  have hidx : p / W < bitset.length := div_lt_length hW hp
  have hmod : p % W < W := Nat.mod_lt _ hW
  unfold bitAt flip_cpu_bitset
  rw [List.getD_eq_getElem _ _ (by simpa using hidx), List.getD_eq_getElem _ _ hidx,
    List.getElem_map, Nat.testBit_xor, Nat.testBit_two_pow_sub_one]
  simp [hmod]

/-- C5: `flip_cpu_bitset` complements every word in place; applying it twice
returns the exact original word array, word for word, hence the bit pattern
over the logical range is restored exactly. -/
theorem flip_cpu_bitset_involution (W : Nat) (bitset : List Nat) :
    flip_cpu_bitset W (flip_cpu_bitset W bitset) = bitset := by
  unfold flip_cpu_bitset
  rw [List.map_map]
  have h : ((fun x => (2 ^ W - 1) ^^^ x) ∘ fun x => (2 ^ W - 1) ^^^ x) = id := by
    funext x
    simp [Function.comp, Nat.xor_cancel_left]
  rw [h, List.map_id]

/-- C6: one flip complements the number of set bits over the logical range
`[0, N)`: the count after flipping equals `N` minus the count before; the
padding bits beyond `N` in the trailing word, though also complemented, never
enter the count, which reads only positions below `N`. -/
theorem flip_count_complement (W N : Nat) (bitset : List Nat) (hW : 0 < W)
    (hN : N ≤ W * bitset.length) :
    one_count W (flip_cpu_bitset W bitset) N = N - one_count W bitset N := by
  rw [one_count_eq_countP_bitAt, one_count_eq_countP_bitAt]
  have hlen :=
    List.length_eq_countP_add_countP (fun i => bitAt W bitset i) (List.range N)
  rw [List.length_range] at hlen
  have hc : (List.range N).countP (fun i => bitAt W (flip_cpu_bitset W bitset) i) =
      (List.range N).countP (fun i => decide ¬(bitAt W bitset i = true)) := by
    refine List.countP_congr fun i hi => ?_
    rw [List.mem_range] at hi
    rw [bitAt_flip W bitset i hW (lt_of_lt_of_le hi hN)]
    simp
  rw [hc]
  omega

/-- Witness for C6 at `W = 8`, `N = 8`, one word `0xB5` (five set bits):
the flipped count is `3 = 8 - 5`. -/
theorem flip_count_complement_witness :
    (0 < 8 ∧ 8 ≤ 8 * ([0xB5] : List Nat).length) ∧
      one_count 8 (flip_cpu_bitset 8 [0xB5]) 8 = 8 - one_count 8 [0xB5] 8 :=
  ⟨by decide, flip_count_complement 8 8 [0xB5] (by decide) (by decide)⟩

/-- C9: construction fails with `InvalidArgument` exactly when some mask index
lies outside `[0, length)`; when every index is in range it succeeds (returns
the constructed word array, reporting no error). -/
theorem construct_validation (W length : Nat) (mask_idx : List Nat) :
    (construct W length mask_idx = Except.error "InvalidArgument" ↔
      ∃ idx ∈ mask_idx, ¬idx < length) ∧
    (construct W length mask_idx =
        Except.ok (create_cpu_bitset W
          (List.replicate ((length + W - 1) / W) 0) mask_idx) ↔
      ∀ idx ∈ mask_idx, idx < length) := by
  unfold construct
  by_cases h : ∀ idx ∈ mask_idx, idx < length
  · rw [if_pos]
    · constructor
      · simpa using h
      · simpa using h
    · rw [List.all_eq_true]
      simpa using h
  · rw [if_neg]
    · constructor
      · simpa using not_forall₂.mp h
      · simp [h]
    · rw [List.all_eq_true]
      simpa using h

/-! ### List.set / getD helpers -/

theorem getD_set_self {l : List Nat} {n : Nat} (a : Nat) (h : n < l.length) :
    (l.set n a).getD n 0 = a := by
  rw [List.getD_eq_getElem?_getD, List.getElem?_set_self h]
  rfl

theorem getD_set_ne {l : List Nat} {n m : Nat} (a : Nat) (h : n ≠ m) :
    (l.set n a).getD m 0 = l.getD m 0 := by
  rw [List.getD_eq_getElem?_getD, List.getElem?_set_ne h, ← List.getD_eq_getElem?_getD]

/-! ### Construction: clearing mask bits -/

theorem bitAt_clear_bit (W : Nat) (bitset : List Nat) (m p : Nat) (hW : 0 < W)
    (hm : m < W * bitset.length) (hp : p < W * bitset.length) :
    bitAt W (clear_bit W bitset m) p = (bitAt W bitset p && decide (p ≠ m)) := by
  have hmi : m / W < bitset.length := div_lt_length hW hm
  have hmod : p % W < W := Nat.mod_lt _ hW
  unfold bitAt clear_bit
  by_cases hw : p / W = m / W
  · rw [hw, getD_set_self _ hmi, Nat.one_shiftLeft, Nat.testBit_and, Nat.testBit_xor,
      Nat.testBit_two_pow_sub_one, Nat.testBit_two_pow]
    have heq : W * (p / W) = W * (m / W) := by rw [hw]
    have h1 := Nat.div_add_mod p W
    have h2 := Nat.div_add_mod m W
    have h4 : m % W < W := Nat.mod_lt _ hW
    have hiff : (¬m % W = p % W) ↔ p ≠ m := by omega
    simp only [hmod, decide_True, Bool.true_xor]
    congr 1
    rw [← decide_not]
    exact decide_eq_decide.mpr hiff
  · rw [getD_set_ne _ (fun hh => hw hh.symm)]
    have hne : p ≠ m := fun he => hw (by rw [he])
    simp [hne]

theorem bitAt_add_cpu_bitset (W : Nat) (hW : 0 < W) :
    ∀ (mask bitset : List Nat) (p : Nat),
      (∀ m ∈ mask, m < W * bitset.length) → p < W * bitset.length →
      bitAt W (add_cpu_bitset W bitset mask) p =
        (bitAt W bitset p && decide (p ∉ mask))
  | [], bitset, p, _, _ => by simp [add_cpu_bitset]
  | idx :: rest, bitset, p, hmask, hp => by
    unfold add_cpu_bitset
    have hlen : (clear_bit W bitset idx).length = bitset.length :=
      List.length_set _ _ _
    rw [bitAt_add_cpu_bitset W hW rest (clear_bit W bitset idx) p
      (fun m hm => by rw [hlen]; exact hmask m (List.mem_cons_of_mem _ hm))
      (by rw [hlen]; exact hp)]
    rw [bitAt_clear_bit W bitset idx p hW (hmask idx (List.mem_cons_self _ _)) hp]
    by_cases h1 : p = idx <;> by_cases h2 : p ∈ rest <;>
      simp [h1, h2, List.mem_cons]

theorem bitAt_create_cpu_bitset (W : Nat) (bitset mask : List Nat) (p : Nat)
    (hW : 0 < W) (hmask : ∀ m ∈ mask, m < W * bitset.length)
    (hp : p < W * bitset.length) :
    bitAt W (create_cpu_bitset W bitset mask) p = decide (p ∉ mask) := by
  unfold create_cpu_bitset
  have hlen : (bitset.map fun _ => 2 ^ W - 1).length = bitset.length :=
    List.length_map _ _
  rw [bitAt_add_cpu_bitset W hW mask _ p (by rw [hlen]; exact hmask)
    (by rw [hlen]; exact hp)]
  have hpi : p / W < bitset.length := div_lt_length hW hp
  have hones : bitAt W (bitset.map fun _ => 2 ^ W - 1) p = true := by
    unfold bitAt
    rw [List.getD_eq_getElem _ _ (by simpa using hpi), List.getElem_map,
      Nat.testBit_two_pow_sub_one]
    simp [Nat.mod_lt p hW]
  rw [hones, Bool.true_and]

/-- C3: after construction (all bits initialized to `1`, then each mask index
cleared) the membership test returns `true` exactly for the indices that do
not occur in the mask, for every logical index `i < N`. -/
theorem create_test_membership (W N : Nat) (mask : List Nat) (i : Nat)
    (hW : 0 < W) (hN : 1 ≤ N) (hmask : ∀ m ∈ mask, m < N) (hi : i < N) :
    test_cpu_bitset W
        (create_cpu_bitset W (List.replicate ((N + W - 1) / W) 0) mask) i =
      decide (i ∉ mask) := by
  have hcap : N ≤ W * (List.replicate ((N + W - 1) / W) (0 : Nat)).length := by
    rw [List.length_replicate]
    exact le_mul_ceilDiv W N hW
  rw [test_cpu_bitset_eq_bitAt]
  exact bitAt_create_cpu_bitset W _ mask i hW
    (fun m hm => lt_of_lt_of_le (hmask m hm) hcap) (lt_of_lt_of_le hi hcap)

/-- Witness for C3 at `W = 8`, `N = 10`, mask `[1, 3, 3, 9]`, query `i = 3`. -/
theorem create_test_membership_witness :
    (0 < 8 ∧ 1 ≤ 10 ∧ (∀ m ∈ ([1, 3, 3, 9] : List Nat), m < 10) ∧ 3 < 10) ∧
      test_cpu_bitset 8
          (create_cpu_bitset 8 (List.replicate ((10 + 8 - 1) / 8) 0) [1, 3, 3, 9]) 3 =
        decide (3 ∉ ([1, 3, 3, 9] : List Nat)) :=
  ⟨by decide, create_test_membership 8 10 [1, 3, 3, 9] 3 (by decide) (by decide)
    (by decide) (by decide)⟩

theorem countP_range_mem (N : Nat) (mask : List Nat)
    (hmask : ∀ m ∈ mask, m < N) :
    (List.range N).countP (fun i => decide (i ∈ mask)) = mask.toFinset.card := by
  rw [List.countP_eq_length_filter]
  have hnodup : ((List.range N).filter (fun i => decide (i ∈ mask))).Nodup :=
    (List.nodup_range N).filter _
  rw [← List.toFinset_card_of_nodup hnodup]
  congr 1
  ext x
  simp only [List.mem_toFinset, List.mem_filter, List.mem_range, decide_eq_true_eq]
  exact ⟨fun h => h.2, fun h => ⟨hmask x h, h⟩⟩

/-- C4: the number of set bits over the logical range `[0, N)` after
construction equals `N` minus the number of distinct mask indices; duplicate
mask indices are idempotent (counted once). -/
theorem create_count (W N : Nat) (mask : List Nat)
    (hW : 0 < W) (hN : 1 ≤ N) (hmask : ∀ m ∈ mask, m < N) :
    one_count W (create_cpu_bitset W (List.replicate ((N + W - 1) / W) 0) mask) N =
      N - mask.toFinset.card := by
  have hcap : N ≤ W * (List.replicate ((N + W - 1) / W) (0 : Nat)).length := by
    rw [List.length_replicate]
    exact le_mul_ceilDiv W N hW
  rw [one_count_eq_countP_bitAt]
  have hc : (List.range N).countP
      (fun i => bitAt W (create_cpu_bitset W (List.replicate ((N + W - 1) / W) 0) mask) i) =
      (List.range N).countP (fun i => decide (i ∉ mask)) := by
    refine List.countP_congr fun i hi => ?_
    rw [List.mem_range] at hi
    rw [bitAt_create_cpu_bitset W _ mask i hW
      (fun m hm => lt_of_lt_of_le (hmask m hm) hcap) (lt_of_lt_of_le hi hcap)]
  rw [hc]
  have hsplit :=
    List.length_eq_countP_add_countP (fun i => decide (i ∈ mask)) (List.range N)
  rw [List.length_range] at hsplit
  have hnot : (List.range N).countP (fun a => decide ¬(decide (a ∈ mask) = true)) =
      (List.range N).countP (fun i => decide (i ∉ mask)) := by
    refine List.countP_congr fun i _ => ?_
    simp
  rw [hnot] at hsplit
  rw [countP_range_mem N mask hmask] at hsplit
  omega

/-- Witness for C4 at `W = 8`, `N = 10`, mask `[1, 3, 3, 9]`
(three distinct indices, so the count is `7`). -/
theorem create_count_witness :
    (0 < 8 ∧ 1 ≤ 10 ∧ (∀ m ∈ ([1, 3, 3, 9] : List Nat), m < 10)) ∧
      one_count 8
          (create_cpu_bitset 8 (List.replicate ((10 + 8 - 1) / 8) 0) [1, 3, 3, 9]) 10 =
        10 - ([1, 3, 3, 9] : List Nat).toFinset.card :=
  ⟨by decide, create_count 8 10 [1, 3, 3, 9] (by decide) (by decide) (by decide)⟩

/-! ### Repeat: loop invariant -/

theorem getD_replicate_zero (n m : Nat) : (List.replicate n (0 : Nat)).getD m 0 = 0 := by
  rw [List.getD_eq_getElem?_getD]
  rcases lt_or_ge m n with h | h
  · rw [List.getElem?_eq_getElem (by simpa using h)]
    simp [List.getElem_replicate]
  · rw [List.getElem?_eq_none (by simpa using h)]
    rfl

theorem testBit_bit_shift (x k off j : Nat) :
    (((x >>> k) &&& 1) <<< off).testBit j = (decide (j = off) && x.testBit k) := by
  have hb : (x >>> k) &&& 1 = (x.testBit k).toNat := by
    cases h : x.testBit k
    · have h1 : (x >>> k) &&& 1 ≤ 1 := Nat.and_le_right
      have h2 : ¬((x >>> k) &&& 1) = 1 := by
        have h3 := shiftRight_and_one_beq x k
        rw [h] at h3
        simpa using h3
      simp only [Bool.toNat_false]
      omega
    · have h3 := shiftRight_and_one_beq x k
      rw [h] at h3
      simpa using h3
  rw [hb, Nat.testBit_shiftLeft]
  cases h : x.testBit k
  · simp
  · by_cases hj : j = off
    · subst hj
      simp
    · by_cases hge : off ≤ j
      · have hpos : j - off ≠ 0 := by omega
        have : Nat.testBit 1 (j - off) = false :=
          Nat.testBit_eq_false_of_lt (Nat.one_lt_two_pow hpos)
        simp [hge, hj, this]
      · simp [hj, fun hh => hge hh]

/-- Invariant after `k` bits have been written by `repeat_cpu_bitset` into an
output of `units` words: the length is unchanged and bit `j` of the output is
input bit `j % input_bits` for `j < k`, and still `0` for `j ≥ k`. -/
def repeatInv (W : Nat) (input : List Nat) (input_bits units k : Nat)
    (out : List Nat) : Prop :=
  out.length = units ∧
  ∀ j < W * units,
    bitAt W out j = (decide (j < k) && bitAt W input (j % input_bits))

theorem repeat_body_inv (W : Nat) (input : List Nat) (input_bits units r i : Nat)
    (out : List Nat) (hW : 0 < W) (hi : i < input_bits)
    (hk : r * input_bits + i < W * units)
    (hinv : repeatInv W input input_bits units (r * input_bits + i) out) :
    repeatInv W input input_bits units (r * input_bits + i + 1)
      (repeat_body W input input_bits out r i) := by
  obtain ⟨hlen, hbits⟩ := hinv
  have hki : (r * input_bits + i) / W < out.length := by
    rw [hlen]
    exact div_lt_length hW hk
  have hmodi : (r * input_bits + i) % input_bits = i := by
    rw [Nat.mul_comm, Nat.mul_add_mod, Nat.mod_eq_of_lt hi]
  constructor
  · unfold repeat_body
    simpa using hlen
  · intro j hj
    unfold repeat_body bitAt
    by_cases hw : j / W = (r * input_bits + i) / W
    · rw [hw, getD_set_self _ hki, Nat.testBit_or, testBit_bit_shift]
      have heq : W * (j / W) = W * ((r * input_bits + i) / W) := by rw [hw]
      have h1 := Nat.div_add_mod j W
      have h2 := Nat.div_add_mod (r * input_bits + i) W
      have h3 : j % W < W := Nat.mod_lt _ hW
      have h4 : (r * input_bits + i) % W < W := Nat.mod_lt _ hW
      have hold := hbits j hj
      unfold bitAt at hold
      rw [hw] at hold
      rw [hold]
      by_cases hjk : j = r * input_bits + i
      · have hoff : j % W = (r * input_bits + i) % W := by rw [hjk]
        have hlt : ¬j < r * input_bits + i := by omega
        have hlt1 : j < r * input_bits + i + 1 := by omega
        rw [hjk, hmodi]
        simp [hoff, hlt1, hlt]
      · have hoff : ¬j % W = (r * input_bits + i) % W := by omega
        have hde : decide (j < r * input_bits + i) =
            decide (j < r * input_bits + i + 1) :=
          decide_eq_decide.mpr (by omega)
        rw [hde]
        simp [hoff]
    · rw [getD_set_ne _ (fun hh => hw hh.symm)]
      have hjk : j ≠ r * input_bits + i := fun he => hw (by rw [he])
      have hold := hbits j hj
      unfold bitAt at hold
      rw [hold]
      have hde : decide (j < r * input_bits + i) =
          decide (j < r * input_bits + i + 1) :=
        decide_eq_decide.mpr (by omega)
      rw [hde]

theorem repeat_inner_inv (W : Nat) (input : List Nat) (input_bits units r : Nat)
    (hW : 0 < W) (hcap : (r + 1) * input_bits ≤ W * units) :
    ∀ m, m ≤ input_bits → ∀ out,
      repeatInv W input input_bits units (r * input_bits) out →
      repeatInv W input input_bits units (r * input_bits + m)
        ((List.range m).foldl
          (fun o i => repeat_body W input input_bits o r i) out)
  | 0, _, out, hinv => by simpa using hinv
  | m + 1, hm, out, hinv => by
    rw [List.range_succ, List.foldl_append, List.foldl_cons, List.foldl_nil]
    have hprev := repeat_inner_inv W input input_bits units r hW hcap m
      (Nat.le_of_succ_le hm) out hinv
    have hsucc : (r + 1) * input_bits = r * input_bits + input_bits := by ring
    have hstep := repeat_body_inv W input input_bits units r m _ hW
      (by omega) (by omega) hprev
    have harr : r * input_bits + m + 1 = r * input_bits + (m + 1) := by omega
    rw [harr] at hstep
    exact hstep

theorem repeat_outer_inv (W : Nat) (input : List Nat) (input_bits units : Nat)
    (hW : 0 < W) :
    ∀ n, n * input_bits ≤ W * units → ∀ out,
      repeatInv W input input_bits units 0 out →
      repeatInv W input input_bits units (n * input_bits)
        ((List.range n).foldl
          (fun output r =>
            (List.range input_bits).foldl
              (fun output i => repeat_body W input input_bits output r i) output)
          out)
  | 0, _, out, hinv => by simpa using hinv
  | n + 1, hcap, out, hinv => by
    rw [List.range_succ, List.foldl_append, List.foldl_cons, List.foldl_nil]
    have hsucc : (n + 1) * input_bits = n * input_bits + input_bits := by ring
    have hprev := repeat_outer_inv W input input_bits units hW n (by omega) out hinv
    have hstep := repeat_inner_inv W input input_bits units n hW hcap input_bits
      (le_refl _) _ hprev
    rw [hsucc]
    exact hstep

theorem repeat_cpu_bitset_spec (W : Nat) (input : List Nat) (input_bits rep : Nat)
    (hW : 0 < W) :
    (repeat_cpu_bitset W input input_bits rep).length =
        (input_bits * rep + W - 1) / W ∧
      ∀ j < W * ((input_bits * rep + W - 1) / W),
        bitAt W (repeat_cpu_bitset W input input_bits rep) j =
          (decide (j < rep * input_bits) && bitAt W input (j % input_bits)) := by
  have hcap : rep * input_bits ≤ W * ((input_bits * rep + W - 1) / W) := by
    have h1 := le_mul_ceilDiv W (input_bits * rep) hW
    have h2 : rep * input_bits = input_bits * rep := Nat.mul_comm _ _
    omega
  have hinit : repeatInv W input input_bits ((input_bits * rep + W - 1) / W) 0
      (List.replicate ((input_bits * rep + W - 1) / W) 0) := by
    constructor
    · exact List.length_replicate _ _
    · intro j _
      unfold bitAt
      rw [getD_replicate_zero]
      simp
  have hres := repeat_outer_inv W input input_bits
    ((input_bits * rep + W - 1) / W) hW rep hcap _ hinit
  obtain ⟨hlen, hbits⟩ := hres
  constructor
  · unfold repeat_cpu_bitset
    exact hlen
  · intro j hj
    have hb := hbits j hj
    unfold repeat_cpu_bitset
    exact hb

/-- C2: repeated copies pack contiguously at bit granularity: for every output
bit position `p` below `input_bits * rep`, bit `p` of the destination produced
by `repeat_cpu_bitset` equals bit `p % input_bits` of the input, with no gaps
or padding between repetitions even when `input_bits` is not a multiple of the
word width. -/
theorem repeat_bit_granularity (W : Nat) (input : List Nat)
    (input_bits rep p : Nat) (hW : 0 < W) (hrep : 1 ≤ rep)
    (hp : p < input_bits * rep) :
    bitAt W (repeat_cpu_bitset W input input_bits rep) p =
      bitAt W input (p % input_bits) := by
  obtain ⟨-, hbits⟩ := repeat_cpu_bitset_spec W input input_bits rep hW
  have hcap : input_bits * rep ≤ W * ((input_bits * rep + W - 1) / W) :=
    le_mul_ceilDiv W _ hW
  rw [hbits p (lt_of_lt_of_le hp hcap)]
  have hlt : p < rep * input_bits := by
    rw [Nat.mul_comm]
    exact hp
  simp [hlt]

/-- Witness for C2 at `W = 8`, one input word `0xB5`, `input_bits = 5`,
`rep = 3`, output position `p = 11` (maps to input bit `1`). -/
theorem repeat_bit_granularity_witness :
    (0 < 8 ∧ 1 ≤ 3 ∧ 11 < 5 * 3) ∧
      bitAt 8 (repeat_cpu_bitset 8 [0xB5] 5 3) 11 = bitAt 8 [0xB5] (11 % 5) :=
  ⟨by decide, repeat_bit_granularity 8 [0xB5] 5 3 11 (by decide) (by decide)
    (by decide)⟩

/-- C10: `repeat_cpu_bitset` zeroes the destination before writing and never
writes at or beyond `input_bits * rep`, so every padding bit in the allocated
words (positions in `[input_bits * rep, W * output_units)`) is `0` after the
call — stronger than the spec, which leaves those bits unspecified. -/
theorem repeat_padding_zero (W : Nat) (input : List Nat)
    (input_bits rep p : Nat) (hW : 0 < W) (hrep : 1 ≤ rep)
    (hlo : input_bits * rep ≤ p)
    (hhi : p < W * eval_n_elements W (input_bits * rep)) :
    bitAt W (repeat_cpu_bitset W input input_bits rep) p = false := by
  obtain ⟨-, hbits⟩ := repeat_cpu_bitset_spec W input input_bits rep hW
  rw [hbits p hhi]
  have hge : ¬p < rep * input_bits := by
    rw [Nat.mul_comm]
    omega
  simp [hge]

/-- Witness for C10 at `W = 8`, input `0xB5`, `input_bits = 5`, `rep = 3`:
position `15` is in the allocated two words but beyond the `15`-bit logical
output... position `p = 15` with `W * eval_n_elements = 16`. -/
theorem repeat_padding_zero_witness :
    (0 < 8 ∧ 1 ≤ 3 ∧ 5 * 3 ≤ 15 ∧ 15 < 8 * eval_n_elements 8 (5 * 3)) ∧
      bitAt 8 (repeat_cpu_bitset 8 [0xB5] 5 3) 15 = false :=
  ⟨by decide, repeat_padding_zero 8 [0xB5] 5 3 15 (by decide) (by decide)
    (by decide) (by decide)⟩

/-! ### Repeat: count and sparsity -/

theorem countP_range_mul_periodic (f : Nat → Bool) (ib : Nat) :
    ∀ rep, (List.range (rep * ib)).countP (fun p => f (p % ib)) =
      rep * (List.range ib).countP f
  | 0 => by simp
  | rep + 1 => by
    have hsucc : (rep + 1) * ib = rep * ib + ib := by ring
    rw [hsucc, List.range_add, List.countP_append,
      countP_range_mul_periodic f ib rep, List.countP_map]
    have hc : (List.range ib).countP
        ((fun p => f (p % ib)) ∘ fun x => rep * ib + x) =
        (List.range ib).countP f := by
      refine List.countP_congr fun i hi => ?_
      rw [List.mem_range] at hi
      simp only [Function.comp]
      rw [Nat.mul_comm, Nat.mul_add_mod, Nat.mod_eq_of_lt hi]
    rw [hc]
    ring

theorem one_count_le (W : Nat) (data : List Nat) (N : Nat) :
    one_count W data N ≤ N := by
  unfold one_count
  calc (List.range N).countP _ ≤ (List.range N).length := List.countP_le_length _
    _ = N := List.length_range N

theorem one_count_repeat (W : Nat) (input : List Nat) (input_bits rep : Nat)
    (hW : 0 < W) :
    one_count W (repeat_cpu_bitset W input input_bits rep) (input_bits * rep) =
      rep * one_count W input input_bits := by
  obtain ⟨-, hbits⟩ := repeat_cpu_bitset_spec W input input_bits rep hW
  have hcap : input_bits * rep ≤ W * ((input_bits * rep + W - 1) / W) :=
    le_mul_ceilDiv W _ hW
  rw [one_count_eq_countP_bitAt, one_count_eq_countP_bitAt]
  have hc : (List.range (input_bits * rep)).countP
      (fun i => bitAt W (repeat_cpu_bitset W input input_bits rep) i) =
      (List.range (input_bits * rep)).countP
        (fun i => bitAt W input (i % input_bits)) := by
    refine List.countP_congr fun i hi => ?_
    rw [List.mem_range] at hi
    rw [hbits i (lt_of_lt_of_le hi hcap)]
    have hlt : i < rep * input_bits := by
      rw [Nat.mul_comm]
      exact hi
    simp [hlt]
  rw [hc]
  have hcomm : input_bits * rep = rep * input_bits := Nat.mul_comm _ _
  rw [hcomm, countP_range_mul_periodic]

/-- C7: `repeat` preserves the number of set bits per copy and hence the
sparsity: the count of the output over `[0, input_bits * rep)` is `rep` times
the count of the input over `[0, input_bits)`, and the sparsity — the exact
fraction of zero bits — of the output equals that of the input, also when
`input_bits` is not a multiple of the word width. -/
theorem repeat_count_sparsity (W : Nat) (input : List Nat) (input_bits rep : Nat)
    (hW : 0 < W) (hib : 1 ≤ input_bits) (hrep : 1 ≤ rep) :
    one_count W (repeat_cpu_bitset W input input_bits rep) (input_bits * rep) =
        rep * one_count W input input_bits ∧
      sparsity_cpu_bitset W (repeat_cpu_bitset W input input_bits rep)
          (input_bits * rep) =
        sparsity_cpu_bitset W input input_bits := by
  have hcount := one_count_repeat W input input_bits rep hW
  refine ⟨hcount, ?_⟩
  unfold sparsity_cpu_bitset
  rw [hcount]
  have hle : one_count W input input_bits ≤ input_bits := one_count_le W input input_bits
  have hle2 : rep * one_count W input input_bits ≤ input_bits * rep := by
    rw [Nat.mul_comm input_bits rep]
    exact Nat.mul_le_mul_left rep hle
  rw [Nat.cast_sub hle2, Nat.cast_sub hle]
  have hib0 : (input_bits : ℚ) ≠ 0 := Nat.cast_ne_zero.mpr (by omega)
  have hrep0 : (rep : ℚ) ≠ 0 := Nat.cast_ne_zero.mpr (by omega)
  push_cast
  field_simp
  ring

/-- Witness for C7 at `W = 8`, input word `0xB5`, `input_bits = 5`, `rep = 3`:
three set bits per copy, nine in the output, and sparsity `2/5` on both
sides. -/
theorem repeat_count_sparsity_witness :
    (0 < 8 ∧ 1 ≤ 5 ∧ 1 ≤ 3) ∧
      (one_count 8 (repeat_cpu_bitset 8 [0xB5] 5 3) (5 * 3) =
          3 * one_count 8 [0xB5] 5 ∧
        sparsity_cpu_bitset 8 (repeat_cpu_bitset 8 [0xB5] 5 3) (5 * 3) =
          sparsity_cpu_bitset 8 [0xB5] 5) :=
  ⟨by decide, repeat_count_sparsity 8 [0xB5] 5 3 (by decide) (by decide) (by decide)⟩

/-- C8: `eval_n_elements` is the deterministic pure ceiling
`ceil(bit_count / W)` — characterized exactly by
`bit_count ≤ W * e < bit_count + W` — the repeat output consists of exactly
`eval_n_elements (input_bits * rep)` words, and every word index written by
`repeat_cpu_bitset` (word `(r * input_bits + i) / W` for repetition `r` and
input bit `i`) is strictly below that, so writing the `input_bits * rep`
output bits never overflows a destination buffer of that many words. -/
theorem eval_n_elements_repeat_safe (W : Nat) (input : List Nat)
    (bit_count input_bits rep : Nat) (hW : 0 < W) :
    (bit_count ≤ W * eval_n_elements W bit_count ∧
        W * eval_n_elements W bit_count < bit_count + W) ∧
      (repeat_cpu_bitset W input input_bits rep).length =
        eval_n_elements W (input_bits * rep) ∧
      ∀ r < rep, ∀ i < input_bits,
        (r * input_bits + i) / W < eval_n_elements W (input_bits * rep) := by
  refine ⟨⟨le_mul_ceilDiv W bit_count hW, ?_⟩, ?_, ?_⟩
  · have h1 := Nat.div_add_mod (bit_count + W - 1) W
    have h2 : (bit_count + W - 1) % W < W := Nat.mod_lt _ hW
    unfold eval_n_elements
    omega
  · exact (repeat_cpu_bitset_spec W input input_bits rep hW).1
  · intro r hr i hi
    have hcap : input_bits * rep ≤ W * eval_n_elements W (input_bits * rep) :=
      le_mul_ceilDiv W _ hW
    have hlt : r * input_bits + i < input_bits * rep := by
      have h1 : r + 1 ≤ rep := hr
      have h2 : (r + 1) * input_bits ≤ rep * input_bits :=
        Nat.mul_le_mul_right _ h1
      have h3 : (r + 1) * input_bits = r * input_bits + input_bits := by ring
      have h4 : rep * input_bits = input_bits * rep := Nat.mul_comm _ _
      omega
    exact div_lt_length hW (lt_of_lt_of_le hlt hcap)

/-- Witness for C8 at `W = 8`, input `0xB5`, `bit_count = 15`,
`input_bits = 5`, `rep = 3`. -/
theorem eval_n_elements_repeat_safe_witness :
    0 < 8 ∧
      ((15 ≤ 8 * eval_n_elements 8 15 ∧ 8 * eval_n_elements 8 15 < 15 + 8) ∧
        (repeat_cpu_bitset 8 [0xB5] 5 3).length = eval_n_elements 8 (5 * 3) ∧
        ∀ r < 3, ∀ i < 5, (r * 5 + i) / 8 < eval_n_elements 8 (5 * 3)) :=
  ⟨by decide, eval_n_elements_repeat_safe 8 [0xB5] 15 5 3 (by decide)⟩

/-! ### Width reinterpretation: byte-level lemmas -/

theorem mem_toBytesLE_lt : ∀ (k x : Nat), ∀ b ∈ toBytesLE k x, b < 256
  | 0, x, b, hb => by simp [toBytesLE] at hb
  | k + 1, x, b, hb => by
    unfold toBytesLE at hb
    rcases List.mem_cons.mp hb with h | h
    · subst h
      exact Nat.mod_lt _ (by omega)
    · exact mem_toBytesLE_lt k (x / 256) b h

theorem mem_wordsToBytesLE_lt (wB : Nat) :
    ∀ (words : List Nat), ∀ b ∈ wordsToBytesLE wB words, b < 256
  | [], b, hb => by simp [wordsToBytesLE] at hb
  | w :: ws, b, hb => by
    unfold wordsToBytesLE at hb
    rcases List.mem_append.mp hb with h | h
    · exact mem_toBytesLE_lt wB w b h
    · exact mem_wordsToBytesLE_lt wB ws b h

theorem length_toBytesLE : ∀ (k x : Nat), (toBytesLE k x).length = k
  | 0, _ => rfl
  | k + 1, x => by
    unfold toBytesLE
    simp [length_toBytesLE k]

theorem getD_lt_of_forall {bytes : List Nat} {c : Nat} (hc : 0 < c)
    (h : ∀ b ∈ bytes, b < c) (s : Nat) : bytes.getD s 0 < c := by
  rcases lt_or_ge s bytes.length with hs | hs
  · rw [List.getD_eq_getElem _ _ hs]
    exact h _ (List.getElem_mem hs)
  · rw [List.getD_eq_getElem?_getD, List.getElem?_eq_none hs]
    exact hc

theorem testBit_readWordLE (bytes : List Nat) (hbytes : ∀ b ∈ bytes, b < 256) :
    ∀ (k s o : Nat), o < 8 * k →
      (readWordLE bytes k s).testBit o = streamBit bytes (8 * s + o)
  | 0, _, o, ho => by omega
  | k + 1, s, o, ho => by
    unfold readWordLE
    have ha : bytes.getD s 0 < 256 := getD_lt_of_forall (by omega) hbytes s
    by_cases h8 : o < 8
    · have hmod : (bytes.getD s 0 + 256 * readWordLE bytes k (s + 1)) % 2 ^ 8 =
          bytes.getD s 0 := by
        have h256 : (2 : Nat) ^ 8 = 256 := by norm_num
        rw [h256, Nat.add_mul_mod_self_left, Nat.mod_eq_of_lt ha]
      have hkey := Nat.testBit_mod_two_pow
        (bytes.getD s 0 + 256 * readWordLE bytes k (s + 1)) 8 o
      rw [hmod] at hkey
      unfold streamBit
      have hd : (8 * s + o) / 8 = s := by omega
      have hm : (8 * s + o) % 8 = o := by omega
      rw [hd, hm, hkey]
      simp [h8]
    · have hshift : (bytes.getD s 0 + 256 * readWordLE bytes k (s + 1)) >>> 8 =
          readWordLE bytes k (s + 1) := by
        rw [Nat.shiftRight_eq_div_pow]
        have h256 : (2 : Nat) ^ 8 = 256 := by norm_num
        rw [h256, Nat.add_mul_div_left _ _ (by omega : 0 < 256),
          Nat.div_eq_of_lt ha, Nat.zero_add]
      have htb := Nat.testBit_shiftRight
        (x := bytes.getD s 0 + 256 * readWordLE bytes k (s + 1)) (i := 8) (j := o - 8)
      rw [hshift] at htb
      have h1 : 8 + (o - 8) = o := by omega
      rw [h1] at htb
      rw [← htb, testBit_readWordLE bytes hbytes k (s + 1) (o - 8) (by omega)]
      have h2 : 8 * (s + 1) + (o - 8) = 8 * s + o := by omega
      rw [h2]

theorem streamBit_cons_lt {a : Nat} {t : List Nat} {p : Nat} (hp : p < 8) :
    streamBit (a :: t) p = a.testBit p := by
  unfold streamBit
  have hd : p / 8 = 0 := by omega
  have hm : p % 8 = p := by omega
  rw [hd, hm, List.getD_cons_zero]

theorem streamBit_cons_ge {a : Nat} {t : List Nat} {p : Nat} (hp : 8 ≤ p) :
    streamBit (a :: t) p = streamBit t (p - 8) := by
  unfold streamBit
  have hd : p / 8 = (p - 8) / 8 + 1 := by omega
  have hm : p % 8 = (p - 8) % 8 := by omega
  rw [hd, hm, List.getD_cons_succ]

theorem streamBit_toBytesLE : ∀ (k x p : Nat), p < 8 * k →
    streamBit (toBytesLE k x) p = x.testBit p
  | 0, _, _, hp => by omega
  | k + 1, x, p, hp => by
    unfold toBytesLE
    by_cases h8 : p < 8
    · rw [streamBit_cons_lt h8]
      have h256 : (256 : Nat) = 2 ^ 8 := by norm_num
      rw [h256, Nat.testBit_mod_two_pow]
      simp [h8]
    · rw [streamBit_cons_ge (by omega),
        streamBit_toBytesLE k (x / 256) (p - 8) (by omega)]
      have h256 : (256 : Nat) = 2 ^ 8 := by norm_num
      rw [h256, ← Nat.shiftRight_eq_div_pow,
        Nat.testBit_shiftRight (x := x) (i := 8) (j := p - 8)]
      congr 1
      omega

theorem streamBit_append_left {c rest : List Nat} {p : Nat}
    (h : p / 8 < c.length) : streamBit (c ++ rest) p = streamBit c p := by
  unfold streamBit
  rw [List.getD_eq_getElem?_getD, List.getD_eq_getElem?_getD, List.getElem?_append,
    if_pos h]

theorem streamBit_append_chunk {c rest : List Nat} {p wB : Nat}
    (hlen : c.length = wB) (hp : 8 * wB ≤ p) :
    streamBit (c ++ rest) p = streamBit rest (p - 8 * wB) := by
  unfold streamBit
  rw [List.getD_eq_getElem?_getD, List.getD_eq_getElem?_getD,
    List.getElem?_append_right (by omega)]
  have h1 : p / 8 - c.length = (p - 8 * wB) / 8 := by omega
  have h2 : p % 8 = (p - 8 * wB) % 8 := by omega
  rw [h1, h2]

theorem streamBit_wordsToBytesLE (wB : Nat) (hwB : 0 < wB) :
    ∀ (words : List Nat) (p : Nat),
      streamBit (wordsToBytesLE wB words) p =
        (words.getD (p / (8 * wB)) 0).testBit (p % (8 * wB))
  | [], p => by
    unfold wordsToBytesLE streamBit
    simp [Nat.zero_testBit]
  | w :: ws, p => by
    unfold wordsToBytesLE
    by_cases hp : p < 8 * wB
    · rw [streamBit_append_left (c := toBytesLE wB w)
        (by rw [length_toBytesLE]; omega)]
      rw [streamBit_toBytesLE wB w p hp]
      rw [Nat.div_eq_of_lt hp, Nat.mod_eq_of_lt hp]
      rfl
    · obtain ⟨d, rfl⟩ : ∃ d, p = d + 8 * wB := ⟨p - 8 * wB, by omega⟩
      rw [streamBit_append_chunk (length_toBytesLE wB w) (by omega)]
      have hc : d + 8 * wB - 8 * wB = d := by omega
      rw [hc, streamBit_wordsToBytesLE wB hwB ws d]
      have hq : 0 < 8 * wB := by omega
      rw [Nat.add_div_right _ hq, Nat.add_mod_right]
      rfl

theorem nbits_remap_eq (W Wv q : Nat)
    (hW : W = 8 ∨ W = 16 ∨ W = 32 ∨ W = 64)
    (hWv : Wv = 8 ∨ Wv = 32 ∨ Wv = 64) :
    8 * ((if W > Wv then q / W * W / Wv + q % W / Wv else q / W * W / Wv) *
        (Wv / 8)) +
      (if W > Wv then q % W % Wv
       else q / W % (Wv / W) * W + q % W % Wv) = q ∧
    (if W > Wv then q % W % Wv
     else q / W % (Wv / W) * W + q % W % Wv) < 8 * (Wv / 8) := by
  rcases hW with rfl | rfl | rfl | rfl <;> rcases hWv with rfl | rfl | rfl <;>
    norm_num <;> omega

/-- C1: width-reinterpretation equivalence of bit testing: for a bitset stored
as an array of words of native width `W ∈ {8, 16, 32, 64}`, for every new word
width `Wv ∈ {8, 32, 64}` and every logical index `q < N`, testing bit `q`
through the reinterpreted view (the little-endian byte reinterpretation of the
backing array read at width `Wv`, with the index remapping of
`test_cpu_bitset_nbits` using `original_nbits = W`) returns the same boolean
as testing bit `q` directly at the native width `W`. -/
theorem width_reinterpretation_equiv (W Wv N q : Nat) (words : List Nat)
    (hW : W = 8 ∨ W = 16 ∨ W = 32 ∨ W = 64)
    (hWv : Wv = 8 ∨ Wv = 32 ∨ Wv = 64)
    (hwords : ∀ x ∈ words, x < 2 ^ W)
    (hN : N ≤ W * words.length) (hq : q < N) :
    test_cpu_bitset_nbits Wv (wordsToBytesLE (W / 8) words) q W =
      test_cpu_bitset W words q := by
  have hbytes := mem_wordsToBytesLE_lt (W / 8) words
  have hwB : 0 < W / 8 := by rcases hW with rfl | rfl | rfl | rfl <;> norm_num
  have h8W : 8 * (W / 8) = W := by rcases hW with rfl | rfl | rfl | rfl <;> norm_num
  obtain ⟨hsum, hlt⟩ := nbits_remap_eq W Wv q hW hWv
  have hnat : test_cpu_bitset W words q =
      streamBit (wordsToBytesLE (W / 8) words) q := by
    rw [test_cpu_bitset_eq_bitAt, streamBit_wordsToBytesLE (W / 8) hwB words q, h8W]
    rfl
  rw [hnat]
  simp only [test_cpu_bitset_nbits]
  rw [and_one_shiftLeft_ne, testBit_readWordLE _ hbytes _ _ _ hlt, hsum]

/-- Witness for C1 at native width `W = 16`, view width `Wv = 8`, words
`[0xBEEF, 0x1234]`, `N = 32`, query `q = 5`. -/
theorem width_reinterpretation_equiv_witness :
    ((16 = 8 ∨ 16 = 16 ∨ 16 = 32 ∨ 16 = 64) ∧ (8 = 8 ∨ 8 = 32 ∨ 8 = 64) ∧
      (∀ x ∈ ([0xBEEF, 0x1234] : List Nat), x < 2 ^ 16) ∧
      32 ≤ 16 * ([0xBEEF, 0x1234] : List Nat).length ∧ 5 < 32) ∧
      test_cpu_bitset_nbits 8 (wordsToBytesLE (16 / 8) [0xBEEF, 0x1234]) 5 16 =
        test_cpu_bitset 16 [0xBEEF, 0x1234] 5 :=
  ⟨by decide, width_reinterpretation_equiv 16 8 32 5 [0xBEEF, 0x1234]
    (by decide) (by decide) (by decide) (by decide) (by decide)⟩

end RaftBitset
